import Mathlib

/-!
Verification of the hierarchy resolution and caching engine of the
ini_class_parser repository (src/src/ini_class_parser/cache.py, types.py).

The Python code is shallowly embedded: dictionaries become association
lists (String keys, first-match lookup, insert-replaces semantics),
sets become lists queried by membership, and the unbounded while loops
of the path resolver become fuel-indexed recursive functions.  The fuel
is always instantiated at entries.length + 1, and a stabilization
theorem shows that any fuel of at least that amount yields the same
result, which is exactly the statement that the Python loop terminates.
-/

/-- Embedding of ConfigEntry from types.py: one decoded record. -/
structure ConfigEntry where
  class_name : String
  source : String
  category : String
  parent : String
  inherits_from : String
  is_simple_object : Bool
  num_properties : Nat
  scope : Int
  model : String
deriving DecidableEq

/-- The entries field of a CategoryCache: a dict from class name to record. -/
abbrev Entries := List (String × ConfigEntry)

/-- Keys of the entries dict. -/
def keysOf (entries : Entries) : List String := entries.map Prod.fst

/-- Embedding of the while loop of CacheManager.get_inheritance_path
(the branch without a detected cycle), cache.py lines 266-275.
The loop appends the current name unless it is already visited, absent
from entries, or empty (Python string truthiness); it follows the
inherits_from pointer while non-empty.  The fuel argument replaces the
unbounded while; walkFuel_stable below shows entries.length + 1 fuel
is always enough. -/
def walkFuel (entries : Entries) : Nat → List String → List String → String → List String
  | 0, path, _, _ => path
  | fuel+1, path, visited, cur =>
    if cur = "" then path
    else if cur ∈ visited then path
    else match entries.lookup cur with
      | none => path
      | some e =>
        if e.inherits_from = "" then path ++ [cur]
        else walkFuel entries fuel (path ++ [cur]) (cur :: visited) e.inherits_from

/-- Embedding of CacheManager._detect_inheritance_cycle, cache.py lines
49-66, called as at line 259 with an initially empty visited set.
On meeting a name already seen it returns the accumulated path from the
first occurrence of that name (path[idx:]); otherwise it returns none.
In the source path.append and visited.add also run right before the
entry lookup that breaks the loop, but a break always returns None, so
the returned value is unaffected. -/
def detectFuel (entries : Entries) : Nat → List String → List String → String → Option (List String)
  | 0, _, _, _ => none
  | fuel+1, path, visited, cur =>
    if cur = "" then none
    else if cur ∈ visited then
      (if cur ∈ path then some (path.drop (path.indexOf cur)) else none)
    else match entries.lookup cur with
      | none => none
      | some e =>
        if e.inherits_from = "" then none
        else detectFuel entries fuel (path ++ [cur]) (cur :: visited) e.inherits_from

/-- The path computation of CacheManager.get_inheritance_path at a given
fuel: if a cycle is detected the stored path is the detected cycle
segment (cache.py line 263), otherwise the normal walk result. -/
def computePathFuel (entries : Entries) (fuel : Nat) (class_name : String) : List String :=
  match detectFuel entries fuel [] [] class_name with
  | some cyc => cyc
  | none => walkFuel entries fuel [] [] class_name

/-- The path CacheManager.get_inheritance_path computes on a memo miss
for a class present in entries (cache.py lines 253-276), with the
canonical sufficient fuel. -/
def compute_inheritance_path (entries : Entries) (class_name : String) : List String :=
  computePathFuel entries (entries.length + 1) class_name

/-- Record constructor used for concrete test states: only the name and
the inheritance pointer matter to the engine. -/
def mkE (n inh : String) : ConfigEntry :=
  { class_name := n, source := "", category := "", parent := "",
    inherits_from := inh, is_simple_object := false,
    num_properties := 0, scope := 0, model := "" }

/-- Two-class inheritance cycle A -> B -> A. -/
def twoCycleEntries : Entries := [("A", mkE "A" "B"), ("B", mkE "B" "A")]

/-- A chain leading into a cycle that does not contain the start:
A -> B -> C -> B. -/
def tailCycleEntries : Entries :=
  [("A", mkE "A" "B"), ("B", mkE "B" "C"), ("C", mkE "C" "B")]

/-- A single class whose parent pointer names no record. -/
def ghostEntries : Entries := [("A", mkE "A" "Ghost")]


/-- Dict insertion: replace the binding when the key is present,
otherwise append.  This models assignment into a Python dict. -/
def insertA {α : Type} : List (String × α) → String → α → List (String × α)
  | [], k, v => [(k, v)]
  | (k', v') :: rest, k, v =>
    if k' = k then (k', v) :: rest else (k', v') :: insertA rest k v

/-- The dict comprehension of cache.py line 96, building the entries
dict of bulk_add_entries keyed by class_name (last record wins). -/
def entriesDict (records : List ConfigEntry) : Entries :=
  records.foldl (fun d e => insertA d e.class_name e) []

/-- Insertion into a dict of sets, modelling
children_map[key].add(value) on a defaultdict(set). -/
def addToSetMap : List (String × List String) → String → String → List (String × List String)
  | [], k, v => [(k, [v])]
  | (k', l) :: rest, k, v =>
    if k' = k then (k', if v ∈ l then l else l ++ [v]) :: rest
    else (k', l) :: addToSetMap rest k v

/-- Membership query on a dict of sets: does the set stored under key a
contain b.  Used to state what the children and descendants maps hold. -/
def memMapB (m : List (String × List String)) (a b : String) : Bool :=
  match m.lookup a with
  | some l => decide (b ∈ l)
  | none => false

/-- The children map built by CacheManager.bulk_add_entries, cache.py
lines 99-102: every record with a non-empty inherits_from contributes
its name to the child set of its parent, with no check that the parent
itself has a record. -/
def bulk_children (entries : Entries) : List (String × List String) :=
  entries.foldl
    (fun cm p =>
      if p.2.inherits_from = "" then cm
      else addToSetMap cm p.2.inherits_from p.2.class_name) []

/-- The descendant set computed by CacheManager.compute_descendants,
cache.py lines 171-201, evaluated on a fresh memo: every other class
whose inheritance path contains the given class. -/
def compute_descendants (entries : Entries) (class_name : String) : List String :=
  (keysOf entries).filter
    (fun cls => cls ≠ class_name ∧ class_name ∈ compute_inheritance_path entries cls)

/-- The (ancestor, class) pairs enumerated by the nested loops of
CacheManager.compute_descendants_bulk, cache.py lines 212-217: for each
class, every element of the tail of its inheritance path receives the
class as a descendant. -/
def bulkDescPairs (entries : Entries) : List (String × String) :=
  (keysOf entries).flatMap
    (fun cls => (compute_inheritance_path entries cls).tail.map (fun anc => (anc, cls)))

/-- The descendants map built by CacheManager.compute_descendants_bulk
on a fresh memo. -/
def bulk_descendants (entries : Entries) : List (String × List String) :=
  (bulkDescPairs entries).foldl (fun m p => addToSetMap m p.1 p.2) []

/-- Embedding of the CategoryCache dataclass, cache.py lines 8-24.
The header field plays no role in any claim and is omitted. -/
structure CategoryCache where
  entries : Entries
  entries_lower : List (String × String)
  children : List (String × List String)
  descendants : List (String × List String)
  inheritance_paths : List (String × List String)
deriving DecidableEq

def emptyCache : CategoryCache := ⟨[], [], [], [], []⟩

/-- CacheManager.add_entry, cache.py lines 74-91: rebuilds the cache
with the entry inserted and the lowercase alias updated while carrying
over children, descendants and inheritance_paths unchanged. -/
def add_entry (c : CategoryCache) (e : ConfigEntry) : CategoryCache :=
  { c with
    entries := insertA c.entries e.class_name e,
    entries_lower := insertA c.entries_lower e.class_name.toLower e.class_name }

/-- CategoryCache.create_bulk as used by CacheManager.bulk_add_entries,
cache.py lines 26-38 and 93-111: entries and children built in one
pass, descendants and inheritance_paths left empty. -/
def create_bulk (records : List ConfigEntry) : CategoryCache :=
  { entries := entriesDict records,
    entries_lower := (entriesDict records).foldl
      (fun m p => insertA m p.1.toLower p.1) [],
    children := bulk_children (entriesDict records),
    descendants := [],
    inheritance_paths := [] }

/-- CacheManager.get_inheritance_path, cache.py lines 245-288: empty
result for a class absent from entries, otherwise the memoized path if
present, otherwise the computed path which is also stored in the memo. -/
def get_inheritance_path (c : CategoryCache) (class_name : String) :
    List String × CategoryCache :=
  if (c.entries.lookup class_name).isNone then ([], c)
  else
    match c.inheritance_paths.lookup class_name with
    | some p => (p, c)
    | none =>
      let p := compute_inheritance_path c.entries class_name
      (p, { c with inheritance_paths := c.inheritance_paths ++ [(class_name, p)] })

/-- CacheManager._get_raw_path, cache.py lines 391-412: the plain walk,
guarded by an existence check, used only to sort classes by depth. -/
def get_raw_path (entries : Entries) (class_name : String) : List String :=
  if (entries.lookup class_name).isSome then
    walkFuel entries (entries.length + 1) [] [] class_name
  else []

/-- Stable insertion of a name into a list sorted by a numeric key,
modelling Python list.sort with a key function. -/
def insertSorted (key : String → Nat) (x : String) : List String → List String
  | [] => [x]
  | y :: ys => if key x < key y then x :: y :: ys else y :: insertSorted key x ys

/-- Sort a list of names by a numeric key. -/
def sortByKey (key : String → Nat) (l : List String) : List String :=
  l.foldr (insertSorted key) []

/-- The new_paths dict built by CacheManager.precompute_all_paths,
cache.py lines 356-383: walk every not-yet-memoized class, sorted by raw
path length, with the plain while loop and no cycle detection. -/
def precompute_new_paths (c : CategoryCache) : List (String × List String) :=
  (sortByKey (fun x => (get_raw_path c.entries x).length) (keysOf c.entries)).foldl
    (fun np cls =>
      if (c.inheritance_paths.lookup cls).isSome then np
      else np ++ [(cls, walkFuel c.entries (c.entries.length + 1) [] [] cls)]) []

/-- CacheManager.precompute_all_paths, cache.py lines 350-389: no-op on
an empty category, otherwise the new paths are merged into the memo as
dict.update does. -/
def precompute_all_paths (c : CategoryCache) : CategoryCache :=
  if c.entries = [] then c
  else { c with inheritance_paths :=
    (precompute_new_paths c).foldl (fun m p => insertA m p.1 p.2) c.inheritance_paths }

/-- A freshly bulk-populated cache with no memoized paths: the state on
which lazy resolution and the bulk sweep are compared. -/
def freshCache (entries : Entries) : CategoryCache :=
  { entries := entries, entries_lower := [], children := [],
    descendants := [], inheritance_paths := [] }

/-- The _categories dict of CacheManager, cache.py line 44. -/
abbrev Manager := List (String × CategoryCache)

/-- CacheManager.get_or_create_cache, cache.py lines 68-72. -/
def get_or_create_cache (m : Manager) (category : String) : CategoryCache × Manager :=
  match m.lookup category with
  | some c => (c, m)
  | none => (emptyCache, m ++ [(category, emptyCache)])

/-- CacheManager.get_children, cache.py lines 239-243: empty set for an
unknown category, otherwise the memoized child set with empty default. -/
def mgr_get_children (m : Manager) (category class_name : String) : List String :=
  match m.lookup category with
  | none => []
  | some c => (c.children.lookup class_name).getD []

/-- CacheManager.get_inheritance_path at the manager level, including
the category auto-creation of get_or_create_cache and the write-back of
the updated category cache. -/
def mgr_get_inheritance_path (m : Manager) (category class_name : String) :
    List String × Manager :=
  ((get_inheritance_path (get_or_create_cache m category).1 class_name).1,
    insertA (get_or_create_cache m category).2 category
      (get_inheritance_path (get_or_create_cache m category).1 class_name).2)

/-- CacheManager.bulk_add_entries at the manager level, cache.py lines
93-111 (the global class-to-category maps play no role in any claim). -/
def mgr_bulk_add_entries (m : Manager) (category : String)
    (records : List ConfigEntry) : Manager :=
  insertA m category (create_bulk records)

/-- Lookup of a class record inside one category of a manager. -/
def entriesLookup (m : Manager) (category class_name : String) : Option ConfigEntry :=
  match m.lookup category with
  | none => none
  | some c => c.entries.lookup class_name


/-! ### Dictionary lemmas -/

theorem lookup_cons {α : Type} (k ka : String) (va : α) (rest : List (String × α)) :
    List.lookup k ((ka, va) :: rest) = if k = ka then some va else List.lookup k rest := by
  rw [List.lookup]
  by_cases h : k = ka
  · rw [if_pos h]
    have : (k == ka) = true := beq_iff_eq.mpr h
    rw [this]
  · rw [if_neg h]
    have : (k == ka) = false := beq_eq_false_iff_ne.mpr h
    rw [this]

theorem lookup_mem {α : Type} {l : List (String × α)} {k : String} {v : α}
    (h : l.lookup k = some v) : (k, v) ∈ l := by
  induction l with
  | nil => simp [List.lookup] at h
  | cons p rest ih =>
    obtain ⟨ka, va⟩ := p
    rw [lookup_cons] at h
    by_cases hk : k = ka
    · rw [if_pos hk] at h
      obtain rfl := Option.some.inj h
      simp [hk]
    · rw [if_neg hk] at h
      exact List.mem_cons_of_mem _ (ih h)

theorem mem_keysOf_of_lookup {entries : Entries} {k : String} {v : ConfigEntry}
    (h : entries.lookup k = some v) : k ∈ keysOf entries :=
  List.mem_map.mpr ⟨(k, v), lookup_mem h, rfl⟩

theorem lookup_isSome_of_mem_keys {α : Type} {l : List (String × α)} {k : String}
    (h : k ∈ l.map Prod.fst) : (l.lookup k).isSome := by
  induction l with
  | nil => simp at h
  | cons p rest ih =>
    obtain ⟨ka, va⟩ := p
    rw [lookup_cons]
    by_cases hk : k = ka
    · simp [hk]
    · rw [if_neg hk]
      simp only [List.map_cons, List.mem_cons] at h
      rcases h with h | h
      · exact absurd h hk
      · exact ih h

theorem lookup_eq_none_of_not_mem_keys {α : Type} {l : List (String × α)} {k : String}
    (h : k ∉ l.map Prod.fst) : l.lookup k = none := by
  cases hl : l.lookup k with
  | none => rfl
  | some v => exact absurd (List.mem_map.mpr ⟨(k, v), lookup_mem hl, rfl⟩) h

theorem lookup_insertA_self {α : Type} (l : List (String × α)) (k : String) (v : α) :
    (insertA l k v).lookup k = some v := by
  induction l with
  | nil => simp [insertA, lookup_cons]
  | cons p rest ih =>
    obtain ⟨ka, va⟩ := p
    rw [insertA]
    by_cases hk : ka = k
    · rw [if_pos hk, lookup_cons, if_pos hk.symm]
    · rw [if_neg hk, lookup_cons, if_neg (fun he => hk he.symm)]
      exact ih

theorem lookup_insertA_ne {α : Type} (l : List (String × α)) (k k' : String) (v : α)
    (h : k' ≠ k) : (insertA l k v).lookup k' = l.lookup k' := by
  induction l with
  | nil =>
    show List.lookup k' [(k, v)] = List.lookup k' []
    rw [lookup_cons, if_neg h]
  | cons p rest ih =>
    obtain ⟨ka, va⟩ := p
    rw [insertA]
    by_cases hk : ka = k
    · rw [if_pos hk, lookup_cons, lookup_cons, if_neg (hk ▸ h), if_neg (hk ▸ h)]
    · rw [if_neg hk, lookup_cons, lookup_cons]
      by_cases hb : k' = ka
      · rw [if_pos hb, if_pos hb]
      · rw [if_neg hb, if_neg hb]
        exact ih

theorem mem_insertA {α : Type} {l : List (String × α)} {k : String} {v : α} {p : String × α}
    (h : p ∈ insertA l k v) : p ∈ l ∨ p = (k, v) := by
  induction l with
  | nil => simp [insertA] at h; simp [h]
  | cons q rest ih =>
    obtain ⟨ka, va⟩ := q
    rw [insertA] at h
    by_cases hk : ka = k
    · rw [if_pos hk] at h
      rcases List.mem_cons.mp h with h | h
      · subst hk; right; simpa using h
      · left; exact List.mem_cons_of_mem _ h
    · rw [if_neg hk] at h
      rcases List.mem_cons.mp h with h | h
      · left; simp [h]
      · rcases ih h with h | h
        · left; exact List.mem_cons_of_mem _ h
        · right; exact h

theorem keysOf_insertA_subset {α : Type} (l : List (String × α)) (k : String) (v : α) :
    ∀ a ∈ (insertA l k v).map Prod.fst, a ∈ l.map Prod.fst ∨ a = k := by
  intro a ha
  obtain ⟨⟨ka, va⟩, hm, he⟩ := List.mem_map.mp ha
  rcases mem_insertA hm with h | h
  · left; exact List.mem_map.mpr ⟨_, h, he⟩
  · right; rw [← he, h]

theorem keysOf_insertA_nodup {α : Type} (l : List (String × α)) (k : String) (v : α)
    (h : (l.map Prod.fst).Nodup) : ((insertA l k v).map Prod.fst).Nodup := by
  induction l with
  | nil => simp [insertA]
  | cons p rest ih =>
    obtain ⟨ka, va⟩ := p
    rw [insertA]
    by_cases hk : ka = k
    · rw [if_pos hk]
      simpa using h
    · rw [if_neg hk]
      simp only [List.map_cons, List.nodup_cons] at h ⊢
      refine ⟨fun hm => ?_, ih h.2⟩
      rcases keysOf_insertA_subset rest k v ka hm with hm | hm
      · exact h.1 hm
      · exact hk hm

theorem entriesDict_mem {records : List ConfigEntry} {p : String × ConfigEntry}
    (hp : p ∈ entriesDict records) : p.2 ∈ records ∧ p.2.class_name = p.1 := by
  have main : ∀ (rs : List ConfigEntry) (d : Entries),
      ∀ q ∈ rs.foldl (fun d e => insertA d e.class_name e) d,
        q ∈ d ∨ (q.2 ∈ rs ∧ q.2.class_name = q.1) := by
    intro rs
    induction rs with
    | nil => intro d q hq; exact Or.inl hq
    | cons e rest ih =>
      intro d q hq
      simp only [List.foldl_cons] at hq
      rcases ih (insertA d e.class_name e) q hq with h | h
      · rcases mem_insertA h with h | h
        · exact Or.inl h
        · subst h; exact Or.inr ⟨List.mem_cons_self _ _, rfl⟩
      · exact Or.inr ⟨List.mem_cons_of_mem _ h.1, h.2⟩
  rcases main records [] p hp with h | h
  · simp at h
  · exact h

theorem entriesDict_nodup (records : List ConfigEntry) :
    (keysOf (entriesDict records)).Nodup := by
  have main : ∀ (rs : List ConfigEntry) (d : Entries), (keysOf d).Nodup →
      (keysOf (rs.foldl (fun d e => insertA d e.class_name e) d)).Nodup := by
    intro rs
    induction rs with
    | nil => intro d h; exact h
    | cons e rest ih =>
      intro d h
      simp only [List.foldl_cons]
      exact ih _ (keysOf_insertA_nodup d _ e h)
  exact main records [] (by simp [keysOf])

/-! ### Unfolding lemmas for the fuel-indexed loops -/

theorem walkFuel_zero (entries : Entries) (q vis : List String) (cur : String) :
    walkFuel entries 0 q vis cur = q := rfl

theorem walkFuel_succ_of_empty (entries : Entries) (fuel : Nat) (q vis : List String)
    {cur : String} (hc : cur = "") : walkFuel entries (fuel + 1) q vis cur = q := by
  simp [walkFuel, hc]

theorem walkFuel_succ_of_visited (entries : Entries) (fuel : Nat) (q vis : List String)
    {cur : String} (hv : cur ∈ vis) : walkFuel entries (fuel + 1) q vis cur = q := by
  by_cases hc : cur = ""
  · simp [walkFuel, hc]
  · simp [walkFuel, hc, hv]

theorem walkFuel_succ_of_none (entries : Entries) (fuel : Nat) (q vis : List String)
    {cur : String} (hc : ¬ cur = "") (hv : cur ∉ vis)
    (hl : entries.lookup cur = none) : walkFuel entries (fuel + 1) q vis cur = q := by
  simp [walkFuel, hc, hv, hl]

theorem walkFuel_succ_of_some (entries : Entries) (fuel : Nat) (q vis : List String)
    {cur : String} {e : ConfigEntry} (hc : ¬ cur = "") (hv : cur ∉ vis)
    (hl : entries.lookup cur = some e) :
    walkFuel entries (fuel + 1) q vis cur =
      if e.inherits_from = "" then q ++ [cur]
      else walkFuel entries fuel (q ++ [cur]) (cur :: vis) e.inherits_from := by
  simp [walkFuel, hc, hv, hl]

theorem detectFuel_zero (entries : Entries) (path vis : List String) (cur : String) :
    detectFuel entries 0 path vis cur = none := rfl

theorem detectFuel_succ_of_empty (entries : Entries) (fuel : Nat) (path vis : List String)
    {cur : String} (hc : cur = "") : detectFuel entries (fuel + 1) path vis cur = none := by
  simp [detectFuel, hc]

theorem detectFuel_succ_of_visited (entries : Entries) (fuel : Nat) (path vis : List String)
    {cur : String} (hc : ¬ cur = "") (hv : cur ∈ vis) :
    detectFuel entries (fuel + 1) path vis cur =
      if cur ∈ path then some (path.drop (path.indexOf cur)) else none := by
  simp [detectFuel, hc, hv]

theorem detectFuel_succ_of_none (entries : Entries) (fuel : Nat) (path vis : List String)
    {cur : String} (hc : ¬ cur = "") (hv : cur ∉ vis)
    (hl : entries.lookup cur = none) : detectFuel entries (fuel + 1) path vis cur = none := by
  simp [detectFuel, hc, hv, hl]

theorem detectFuel_succ_of_some (entries : Entries) (fuel : Nat) (path vis : List String)
    {cur : String} {e : ConfigEntry} (hc : ¬ cur = "") (hv : cur ∉ vis)
    (hl : entries.lookup cur = some e) :
    detectFuel entries (fuel + 1) path vis cur =
      if e.inherits_from = "" then none
      else detectFuel entries fuel (path ++ [cur]) (cur :: vis) e.inherits_from := by
  simp [detectFuel, hc, hv, hl]

/-! ### Fuel stabilization: the resolver loops terminate -/

/-- Number of entry keys not yet visited: the variant of the resolver
loops. -/
def unvisitedCard (entries : Entries) (vis : List String) : Nat :=
  ((keysOf entries).toFinset.filter (fun a => a ∉ vis)).card

theorem unvisitedCard_lt {entries : Entries} {vis : List String} {cur : String}
    (hk : cur ∈ keysOf entries) (hv : cur ∉ vis) :
    unvisitedCard entries (cur :: vis) < unvisitedCard entries vis := by
  apply Finset.card_lt_card
  constructor
  · intro a ha
    simp only [Finset.mem_filter, decide_eq_true_eq] at ha ⊢
    exact ⟨ha.1, fun hm => ha.2 (List.mem_cons_of_mem _ hm)⟩
  · intro hsub
    have : cur ∈ (keysOf entries).toFinset.filter (fun a => a ∉ vis) := by
      simp only [Finset.mem_filter, decide_eq_true_eq]
      exact ⟨List.mem_toFinset.mpr hk, hv⟩
    have := hsub this
    simp only [Finset.mem_filter, decide_eq_true_eq] at this
    exact this.2 (List.mem_cons_self _ _)

theorem unvisitedCard_le_length (entries : Entries) (vis : List String) :
    unvisitedCard entries vis ≤ entries.length := by
  calc unvisitedCard entries vis
      ≤ (keysOf entries).toFinset.card := Finset.card_filter_le _ _
    _ ≤ (keysOf entries).length := List.toFinset_card_le _
    _ = entries.length := List.length_map _ _

theorem walkFuel_stable (entries : Entries) :
    ∀ f₁ f₂ q vis cur, unvisitedCard entries vis < f₁ →
      unvisitedCard entries vis < f₂ →
      walkFuel entries f₁ q vis cur = walkFuel entries f₂ q vis cur := by
  intro f₁
  induction f₁ with
  | zero => intro f₂ q vis cur h₁ _; exact absurd h₁ (Nat.not_lt_zero _)
  | succ n ih =>
    intro f₂ q vis cur h₁ h₂
    cases f₂ with
    | zero => exact absurd h₂ (Nat.not_lt_zero _)
    | succ m =>
      by_cases hc : cur = ""
      · rw [walkFuel_succ_of_empty entries n q vis hc,
          walkFuel_succ_of_empty entries m q vis hc]
      · by_cases hv : cur ∈ vis
        · rw [walkFuel_succ_of_visited entries n q vis hv,
            walkFuel_succ_of_visited entries m q vis hv]
        · cases hl : entries.lookup cur with
          | none =>
            rw [walkFuel_succ_of_none entries n q vis hc hv hl,
              walkFuel_succ_of_none entries m q vis hc hv hl]
          | some e =>
            rw [walkFuel_succ_of_some entries n q vis hc hv hl,
              walkFuel_succ_of_some entries m q vis hc hv hl]
            by_cases hi : e.inherits_from = ""
            · rw [if_pos hi, if_pos hi]
            · rw [if_neg hi, if_neg hi]
              have hk : cur ∈ keysOf entries := mem_keysOf_of_lookup hl
              have hlt := unvisitedCard_lt hk hv
              exact ih m _ _ _ (Nat.lt_of_lt_of_le hlt (Nat.lt_succ_iff.mp h₁))
                (Nat.lt_of_lt_of_le hlt (Nat.lt_succ_iff.mp h₂))

theorem detectFuel_stable (entries : Entries) :
    ∀ f₁ f₂ path vis cur, unvisitedCard entries vis < f₁ →
      unvisitedCard entries vis < f₂ →
      detectFuel entries f₁ path vis cur = detectFuel entries f₂ path vis cur := by
  intro f₁
  induction f₁ with
  | zero => intro f₂ path vis cur h₁ _; exact absurd h₁ (Nat.not_lt_zero _)
  | succ n ih =>
    intro f₂ path vis cur h₁ h₂
    cases f₂ with
    | zero => exact absurd h₂ (Nat.not_lt_zero _)
    | succ m =>
      by_cases hc : cur = ""
      · rw [detectFuel_succ_of_empty entries n path vis hc,
          detectFuel_succ_of_empty entries m path vis hc]
      · by_cases hv : cur ∈ vis
        · rw [detectFuel_succ_of_visited entries n path vis hc hv,
            detectFuel_succ_of_visited entries m path vis hc hv]
        · cases hl : entries.lookup cur with
          | none =>
            rw [detectFuel_succ_of_none entries n path vis hc hv hl,
              detectFuel_succ_of_none entries m path vis hc hv hl]
          | some e =>
            rw [detectFuel_succ_of_some entries n path vis hc hv hl,
              detectFuel_succ_of_some entries m path vis hc hv hl]
            by_cases hi : e.inherits_from = ""
            · rw [if_pos hi, if_pos hi]
            · rw [if_neg hi, if_neg hi]
              have hk : cur ∈ keysOf entries := mem_keysOf_of_lookup hl
              have hlt := unvisitedCard_lt hk hv
              exact ih m _ _ _ (Nat.lt_of_lt_of_le hlt (Nat.lt_succ_iff.mp h₁))
                (Nat.lt_of_lt_of_le hlt (Nat.lt_succ_iff.mp h₂))

theorem walkFuel_append (entries : Entries) (fuel : Nat) :
    ∀ q₁ q₂ vis cur, walkFuel entries fuel (q₁ ++ q₂) vis cur =
      q₁ ++ walkFuel entries fuel q₂ vis cur := by
  induction fuel with
  | zero => intro q₁ q₂ vis cur; rfl
  | succ n ih =>
    intro q₁ q₂ vis cur
    by_cases hc : cur = ""
    · rw [walkFuel_succ_of_empty entries n _ vis hc, walkFuel_succ_of_empty entries n q₂ vis hc]
    · by_cases hv : cur ∈ vis
      · rw [walkFuel_succ_of_visited entries n _ vis hv,
          walkFuel_succ_of_visited entries n q₂ vis hv]
      · cases hl : entries.lookup cur with
        | none =>
          rw [walkFuel_succ_of_none entries n _ vis hc hv hl,
            walkFuel_succ_of_none entries n q₂ vis hc hv hl]
        | some e =>
          rw [walkFuel_succ_of_some entries n _ vis hc hv hl,
            walkFuel_succ_of_some entries n q₂ vis hc hv hl]
          by_cases hi : e.inherits_from = ""
          · rw [if_pos hi, if_pos hi, List.append_assoc]
          · rw [if_neg hi, if_neg hi, List.append_assoc]
            exact ih q₁ (q₂ ++ [cur]) (cur :: vis) e.inherits_from

theorem walkFuel_eq_append (entries : Entries) (fuel : Nat) (q vis : List String)
    (cur : String) :
    walkFuel entries fuel q vis cur = q ++ walkFuel entries fuel [] vis cur := by
  have := walkFuel_append entries fuel q [] vis cur
  simpa using this

/-- The inheritance step relation on names: b is the parent recorded for a. -/
def InhR (entries : Entries) (a b : String) : Prop :=
  ∃ e, entries.lookup a = some e ∧ e.inherits_from = b

theorem InhR_functional {entries : Entries} {a b₁ b₂ : String}
    (h₁ : InhR entries a b₁) (h₂ : InhR entries a b₂) : b₁ = b₂ := by
  obtain ⟨e₁, hl₁, hi₁⟩ := h₁
  obtain ⟨e₂, hl₂, hi₂⟩ := h₂
  rw [hl₁] at hl₂
  obtain rfl := Option.some.inj hl₂
  rw [← hi₁, ← hi₂]

theorem walkFuel_nodup (entries : Entries) :
    ∀ fuel q vis cur, q.Nodup → (∀ a ∈ q, a ∈ vis) →
      (walkFuel entries fuel q vis cur).Nodup := by
  intro fuel
  induction fuel with
  | zero => intro q vis cur hq _; exact hq
  | succ n ih =>
    intro q vis cur hq hsub
    by_cases hc : cur = ""
    · rw [walkFuel_succ_of_empty entries n q vis hc]; exact hq
    · by_cases hv : cur ∈ vis
      · rw [walkFuel_succ_of_visited entries n q vis hv]; exact hq
      · have hcq : cur ∉ q := fun hm => hv (hsub cur hm)
        have hq' : (q ++ [cur]).Nodup := by
          rw [List.nodup_append]
          exact ⟨hq, List.nodup_singleton _, by
            intro a ha hb
            rw [List.mem_singleton] at hb
            exact hcq (hb ▸ ha)⟩
        cases hl : entries.lookup cur with
        | none => rw [walkFuel_succ_of_none entries n q vis hc hv hl]; exact hq
        | some e =>
          rw [walkFuel_succ_of_some entries n q vis hc hv hl]
          by_cases hi : e.inherits_from = ""
          · rw [if_pos hi]; exact hq'
          · rw [if_neg hi]
            exact ih (q ++ [cur]) (cur :: vis) e.inherits_from hq' (by
              intro a ha
              rcases List.mem_append.mp ha with ha | ha
              · exact List.mem_cons_of_mem _ (hsub a ha)
              · rw [List.mem_singleton] at ha
                exact ha ▸ List.mem_cons_self _ _)

theorem walkFuel_chain (entries : Entries) :
    ∀ fuel q vis cur, List.Chain' (InhR entries) (q ++ [cur]) →
      List.Chain' (InhR entries) (walkFuel entries fuel q vis cur) := by
  intro fuel
  induction fuel with
  | zero =>
    intro q vis cur h
    exact (List.chain'_append.mp h).1
  | succ n ih =>
    intro q vis cur h
    by_cases hc : cur = ""
    · rw [walkFuel_succ_of_empty entries n q vis hc]; exact (List.chain'_append.mp h).1
    · by_cases hv : cur ∈ vis
      · rw [walkFuel_succ_of_visited entries n q vis hv]; exact (List.chain'_append.mp h).1
      · cases hl : entries.lookup cur with
        | none =>
          rw [walkFuel_succ_of_none entries n q vis hc hv hl]
          exact (List.chain'_append.mp h).1
        | some e =>
          rw [walkFuel_succ_of_some entries n q vis hc hv hl]
          by_cases hi : e.inherits_from = ""
          · rw [if_pos hi]; exact h
          · rw [if_neg hi]
            apply ih
            rw [List.chain'_append]
            refine ⟨h, List.chain'_singleton _, ?_⟩
            intro x hx y hy
            rw [List.getLast?_concat] at hx
            simp only [List.head?_cons, Option.mem_def, Option.some.injEq] at hx hy
            rw [← hx, ← hy]
            exact ⟨e, hl, rfl⟩

theorem walk_start_head (entries : Entries) (fuel : Nat) {X : String} {e : ConfigEntry}
    (hx : ¬ X = "") (hl : entries.lookup X = some e) :
    (walkFuel entries (fuel + 1) [] [] X).head? = some X := by
  rw [walkFuel_succ_of_some entries fuel [] [] hx (List.not_mem_nil X) hl]
  by_cases hi : e.inherits_from = ""
  · rw [if_pos hi]; rfl
  · rw [if_neg hi]
    rw [walkFuel_eq_append entries fuel ([] ++ [X]) [X] e.inherits_from]
    rfl

/-- What _detect_inheritance_cycle returns when it finds a cycle: a
non-empty, duplicate-free segment that is linked by the inheritance
relation and wraps around (the parent of its last element is its first
element), and whose first element is the first element of the
accumulated path unless that element is not on the segment at all. -/
theorem detectFuel_some_spec (entries : Entries) :
    ∀ fuel path vis cur cyc,
      detectFuel entries fuel path vis cur = some cyc →
      (∀ a, a ∈ vis ↔ a ∈ path) →
      List.Chain' (InhR entries) (path ++ [cur]) →
      path.Nodup →
      cyc ≠ [] ∧ List.Chain' (InhR entries) cyc ∧ cyc.Nodup ∧
        (∃ pl hd, cyc.getLast? = some pl ∧ cyc.head? = some hd ∧ InhR entries pl hd) ∧
        (∀ h₀, path.head? = some h₀ → cyc.head? = some h₀ ∨ h₀ ∉ cyc) := by
  intro fuel
  induction fuel with
  | zero =>
    intro path vis cur cyc h
    rw [detectFuel_zero] at h
    exact absurd h (by simp)
  | succ n ih =>
    intro path vis cur cyc h hpv hch hnd
    by_cases hc : cur = ""
    · rw [detectFuel_succ_of_empty entries n path vis hc] at h
      exact absurd h (by simp)
    · by_cases hv : cur ∈ vis
      · rw [detectFuel_succ_of_visited entries n path vis hc hv] at h
        have hp : cur ∈ path := (hpv cur).mp hv
        rw [if_pos hp] at h
        obtain rfl : path.drop (path.indexOf cur) = cyc := Option.some.inj h
        have hidx : path.indexOf cur < path.length := List.indexOf_lt_length.mpr hp
        have hchp : List.Chain' (InhR entries) path := (List.chain'_append.mp hch).1
        have hne : path.drop (path.indexOf cur) ≠ [] := by
          intro he
          have := List.length_drop (path.indexOf cur) path
          rw [he] at this
          simp at this
          omega
        have hdropGetLast : (path.drop (path.indexOf cur)).getLast? = path.getLast? := by
          conv_rhs => rw [← List.take_append_drop (path.indexOf cur) path]
          rw [List.getLast?_append]
          cases hg : (path.drop (path.indexOf cur)).getLast? with
          | none => exact absurd (List.getLast?_eq_none_iff.mp hg) hne
          | some x => rfl
        have hdropHead : (path.drop (path.indexOf cur)).head? = some cur := by
          rw [List.head?_drop]
          rw [List.getElem?_eq_getElem hidx]
          rw [List.getElem_indexOf hidx]
        refine ⟨hne, ?_, ?_, ?_, ?_⟩
        · conv at hchp => rw [← List.take_append_drop (path.indexOf cur) path]
          exact (List.chain'_append.mp hchp).2.1
        · exact (List.drop_sublist _ _).nodup hnd
        · have hplne : path ≠ [] := List.ne_nil_of_mem hp
          obtain ⟨pl, hpl⟩ : ∃ pl, path.getLast? = some pl := by
            cases hg : path.getLast? with
            | none => exact absurd (List.getLast?_eq_none_iff.mp hg) hplne
            | some x => exact ⟨x, rfl⟩
          refine ⟨pl, cur, by rw [hdropGetLast, hpl], hdropHead, ?_⟩
          have := (List.chain'_append.mp hch).2.2
          exact this pl (by rw [hpl]; rfl) cur rfl
        · intro h₀ hh
          by_cases hz : path.indexOf cur = 0
          · left
            rw [hz]
            rw [List.drop_zero]
            exact hh
          · right
            intro hmem
            obtain ⟨p0, t, rfl⟩ : ∃ p0 t, path = p0 :: t := by
              cases path with
              | nil => simp at hh
              | cons p0 t => exact ⟨p0, t, rfl⟩
            have hp0 : p0 = h₀ := by simpa using hh
            obtain ⟨j, hj⟩ : ∃ j, (p0 :: t).indexOf cur = j + 1 :=
              ⟨(p0 :: t).indexOf cur - 1, by omega⟩
            rw [hj] at hmem
            have hdropt : (p0 :: t).drop (j + 1) = t.drop j := rfl
            rw [hdropt] at hmem
            have hmt : h₀ ∈ t := (List.drop_sublist j t).subset hmem
            exact (List.nodup_cons.mp hnd).1 (hp0.symm ▸ hmt)
      · cases hl : entries.lookup cur with
        | none =>
          rw [detectFuel_succ_of_none entries n path vis hc hv hl] at h
          exact absurd h (by simp)
        | some e =>
          rw [detectFuel_succ_of_some entries n path vis hc hv hl] at h
          by_cases hi : e.inherits_from = ""
          · rw [if_pos hi] at h
            exact absurd h (by simp)
          · rw [if_neg hi] at h
            have hpv' : ∀ a, a ∈ cur :: vis ↔ a ∈ path ++ [cur] := by
              intro a
              rw [List.mem_cons, List.mem_append, List.mem_singleton, hpv a]
              tauto
            have hch' : List.Chain' (InhR entries) ((path ++ [cur]) ++ [e.inherits_from]) := by
              rw [List.chain'_append]
              refine ⟨hch, List.chain'_singleton _, ?_⟩
              intro x hx y hy
              rw [List.getLast?_concat] at hx
              simp only [List.head?_cons, Option.mem_def, Option.some.injEq] at hx hy
              rw [← hx, ← hy]
              exact ⟨e, hl, rfl⟩
            have hnd' : (path ++ [cur]).Nodup := by
              rw [List.nodup_append]
              exact ⟨hnd, List.nodup_singleton _, by
                intro a ha hb
                rw [List.mem_singleton] at hb
                exact hv ((hpv cur).mpr (by rw [← hb]; exact ha))⟩
            have spec := ih (path ++ [cur]) (cur :: vis) e.inherits_from cyc h hpv' hch' hnd'
            refine ⟨spec.1, spec.2.1, spec.2.2.1, spec.2.2.2.1, ?_⟩
            intro h₀ hh
            have hh' : (path ++ [cur]).head? = some h₀ := by
              rw [List.head?_append, hh]
              rfl
            exact spec.2.2.2.2 h₀ hh'

theorem computePathFuel_stable (entries : Entries) (fuel : Nat) (class_name : String)
    (h : entries.length + 1 ≤ fuel) :
    computePathFuel entries fuel class_name = compute_inheritance_path entries class_name := by
  have hcard : unvisitedCard entries [] < entries.length + 1 :=
    Nat.lt_succ_of_le (unvisitedCard_le_length entries [])
  have hcard' : unvisitedCard entries [] < fuel := Nat.lt_of_lt_of_le hcard h
  unfold compute_inheritance_path computePathFuel
  rw [detectFuel_stable entries fuel (entries.length + 1) [] [] class_name hcard' hcard,
    walkFuel_stable entries fuel (entries.length + 1) [] [] class_name hcard' hcard]

/-- The cycle detection exactly as get_inheritance_path invokes it at
cache.py line 259: from the class with an empty visited set. -/
def detect_inheritance_cycle (entries : Entries) (start_class : String) :
    Option (List String) :=
  detectFuel entries (entries.length + 1) [] [] start_class

theorem compute_path_of_detect_none {entries : Entries} {X : String}
    (h : detect_inheritance_cycle entries X = none) :
    compute_inheritance_path entries X = walkFuel entries (entries.length + 1) [] [] X := by
  unfold detect_inheritance_cycle at h
  unfold compute_inheritance_path computePathFuel
  rw [h]

theorem compute_path_of_detect_some {entries : Entries} {X : String} {cyc : List String}
    (h : detect_inheritance_cycle entries X = some cyc) :
    compute_inheritance_path entries X = cyc := by
  unfold detect_inheritance_cycle at h
  unfold compute_inheritance_path computePathFuel
  rw [h]

/-- Specialization of detectFuel_some_spec to the top-level call made by
get_inheritance_path on a class that has a record. -/
theorem detect_top_spec {entries : Entries} {X : String} {e : ConfigEntry}
    {cyc : List String} (hx : ¬ X = "") (hl : entries.lookup X = some e)
    (h : detect_inheritance_cycle entries X = some cyc) :
    cyc ≠ [] ∧ List.Chain' (InhR entries) cyc ∧ cyc.Nodup ∧
      (∃ pl hd, cyc.getLast? = some pl ∧ cyc.head? = some hd ∧ InhR entries pl hd) ∧
      (cyc.head? = some X ∨ X ∉ cyc) := by
  unfold detect_inheritance_cycle at h
  rw [detectFuel_succ_of_some entries entries.length [] [] hx (List.not_mem_nil X) hl] at h
  by_cases hi : e.inherits_from = ""
  · rw [if_pos hi] at h
    exact absurd h (by simp)
  · rw [if_neg hi] at h
    have hpv : ∀ a, a ∈ X :: ([] : List String) ↔ a ∈ ([] : List String) ++ [X] := by
      intro a; simp
    have hch : List.Chain' (InhR entries) ((([] : List String) ++ [X]) ++ [e.inherits_from]) := by
      have : (([] : List String) ++ [X]) ++ [e.inherits_from] = [X, e.inherits_from] := rfl
      rw [this]
      exact List.chain'_cons.mpr ⟨⟨e, hl, rfl⟩, List.chain'_singleton _⟩
    have hnd : (([] : List String) ++ [X]).Nodup := by simp
    have spec := detectFuel_some_spec entries entries.length ([] ++ [X]) (X :: [])
      e.inherits_from cyc h hpv hch hnd
    refine ⟨spec.1, spec.2.1, spec.2.2.1, spec.2.2.2.1, ?_⟩
    exact spec.2.2.2.2 X rfl

/-- Claim C1: for every category state and class name, the path
computation stabilizes once the fuel reaches the number of entries plus
one, which is the statement that the resolver loop of
get_inheritance_path terminates on every input (cycles and dangling
pointers included), and on the two-class cycle A <-> B the computed path
for A is the finite, non-empty sequence [A, B]. -/
theorem claim_C1 (entries : Entries) (class_name : String) (fuel : Nat)
    (h : entries.length + 1 ≤ fuel) :
    computePathFuel entries fuel class_name = compute_inheritance_path entries class_name ∧
      compute_inheritance_path twoCycleEntries "A" = ["A", "B"] ∧
      compute_inheritance_path twoCycleEntries "A" ≠ [] :=
  ⟨computePathFuel_stable entries fuel class_name h, by decide, by decide⟩

theorem claim_C1_witness :
    twoCycleEntries.length + 1 ≤ 50 ∧
      (computePathFuel twoCycleEntries 50 "A" = compute_inheritance_path twoCycleEntries "A" ∧
        compute_inheritance_path twoCycleEntries "A" = ["A", "B"] ∧
        compute_inheritance_path twoCycleEntries "A" ≠ []) :=
  ⟨by decide, claim_C1 twoCycleEntries "A" 50 (by decide)⟩

/-- Claim C2 counterexample: in the state A -> B -> C -> B, class A has
a record, yet the computed path for A is the cycle segment [B, C]: it
does not begin with A, and it is not the sequence of names accumulated
from A (which would be [A, B, C]). -/
theorem claim_C2_counterexample :
    (∃ e, tailCycleEntries.lookup "A" = some e) ∧
      compute_inheritance_path tailCycleEntries "A" = ["B", "C"] ∧
      (compute_inheritance_path tailCycleEntries "A").head? ≠ some "A" ∧
      compute_inheritance_path tailCycleEntries "A" ≠ ["A", "B", "C"] :=
  ⟨⟨mkE "A" "B", by decide⟩, by decide, by decide, by decide⟩

/-- Claim C2 (amended): for every class X present in entries with a
non-empty name, the computed path is non-empty and consecutive elements
are linked by the recorded inherits_from pointers; when no cycle is
detected from X the path begins with X; when a cycle is detected the
returned sequence is the detected cycle segment, which begins with X
only if X itself lies on the cycle. -/
theorem claim_C2 (entries : Entries) (X : String) (e : ConfigEntry)
    (hl : entries.lookup X = some e) (hx : X ≠ "") :
    compute_inheritance_path entries X ≠ [] ∧
      List.Chain' (InhR entries) (compute_inheritance_path entries X) ∧
      (detect_inheritance_cycle entries X = none →
        (compute_inheritance_path entries X).head? = some X) ∧
      (∀ cyc, detect_inheritance_cycle entries X = some cyc →
        compute_inheritance_path entries X = cyc) := by
  refine ⟨?_, ?_, ?_, fun cyc h => compute_path_of_detect_some h⟩
  · cases hd : detect_inheritance_cycle entries X with
    | some cyc =>
      rw [compute_path_of_detect_some hd]
      exact (detect_top_spec hx hl hd).1
    | none =>
      rw [compute_path_of_detect_none hd]
      intro he
      have hh := walk_start_head entries entries.length hx hl
      rw [he] at hh
      cases hh
  · cases hd : detect_inheritance_cycle entries X with
    | some cyc =>
      rw [compute_path_of_detect_some hd]
      exact (detect_top_spec hx hl hd).2.1
    | none =>
      rw [compute_path_of_detect_none hd]
      apply walkFuel_chain
      have : ([] : List String) ++ [X] = [X] := rfl
      rw [this]
      exact List.chain'_singleton _
  · intro hd
    rw [compute_path_of_detect_none hd]
    exact walk_start_head entries entries.length hx hl

/-- A category with a single root class, used to instantiate amended
claims on a concrete input. -/
def rootOnlyEntries : Entries := [("A", mkE "A" "")]

/-- Claim C4: a class whose inherits_from names a class with no record
gets the singleton path: the walk stops at the last internally-known
class and the unresolved pointer is not appended. -/
theorem claim_C4 (entries : Entries) (A : String) (e : ConfigEntry)
    (hl : entries.lookup A = some e) (ha : A ≠ "")
    (hi : e.inherits_from ≠ "") (hg : entries.lookup e.inherits_from = none) :
    compute_inheritance_path entries A = [A] := by
  have hga : e.inherits_from ≠ A := by
    intro h
    rw [h, hl] at hg
    cases hg
  have hne : entries ≠ [] := by
    intro h
    subst h
    simp [List.lookup] at hl
  obtain ⟨k, hk⟩ : ∃ k, entries.length = k + 1 :=
    ⟨entries.length - 1, by have := List.length_pos.mpr hne; omega⟩
  have hgm : e.inherits_from ∉ A :: ([] : List String) := by
    intro hm
    rw [List.mem_singleton] at hm
    exact hga hm
  have hdet : detect_inheritance_cycle entries A = none := by
    unfold detect_inheritance_cycle
    rw [detectFuel_succ_of_some entries entries.length [] [] ha (List.not_mem_nil A) hl,
      if_neg hi, hk, detectFuel_succ_of_none entries k ([] ++ [A]) (A :: []) hi hgm hg]
  rw [compute_path_of_detect_none hdet,
    walkFuel_succ_of_some entries entries.length [] [] ha (List.not_mem_nil A) hl,
    if_neg hi, hk, walkFuel_succ_of_none entries k ([] ++ [A]) (A :: []) hi hgm hg,
    List.nil_append]

theorem claim_C4_witness :
    ghostEntries.lookup "A" = some (mkE "A" "Ghost") ∧
      (mkE "A" "Ghost").inherits_from ≠ "" ∧
      ghostEntries.lookup "Ghost" = none ∧
      compute_inheritance_path ghostEntries "A" = ["A"] :=
  ⟨by decide, by decide, by decide,
    claim_C4 ghostEntries "A" (mkE "A" "Ghost") (by decide) (by decide) (by decide) (by decide)⟩

/-- Under a detect-none guarantee, enlarging the visited set with names
that are all on the accumulated detect path does not change the walk:
the walk never meets them, for otherwise the detection would have
reported a cycle. -/
theorem walk_visited_irrelevant (entries : Entries) :
    ∀ fuel cur v₁ v₂ path, (∀ a ∈ v₂, a ∈ v₁) → (∀ a, a ∈ v₁ ↔ a ∈ path) →
      detectFuel entries fuel path v₁ cur = none →
      ∀ q, walkFuel entries fuel q v₁ cur = walkFuel entries fuel q v₂ cur := by
  intro fuel
  induction fuel with
  | zero => intro cur v₁ v₂ path _ _ _ q; rfl
  | succ n ih =>
    intro cur v₁ v₂ path hsub hpv hdet q
    by_cases hc : cur = ""
    · rw [walkFuel_succ_of_empty entries n q v₁ hc, walkFuel_succ_of_empty entries n q v₂ hc]
    · by_cases hv1 : cur ∈ v₁
      · rw [detectFuel_succ_of_visited entries n path v₁ hc hv1,
          if_pos ((hpv cur).mp hv1)] at hdet
        cases hdet
      · have hv2 : cur ∉ v₂ := fun hm => hv1 (hsub cur hm)
        cases hl : entries.lookup cur with
        | none =>
          rw [walkFuel_succ_of_none entries n q v₁ hc hv1 hl,
            walkFuel_succ_of_none entries n q v₂ hc hv2 hl]
        | some e =>
          rw [walkFuel_succ_of_some entries n q v₁ hc hv1 hl,
            walkFuel_succ_of_some entries n q v₂ hc hv2 hl]
          by_cases hi : e.inherits_from = ""
          · rw [if_pos hi, if_pos hi]
          · rw [if_neg hi, if_neg hi]
            rw [detectFuel_succ_of_some entries n path v₁ hc hv1 hl, if_neg hi] at hdet
            apply ih e.inherits_from (cur :: v₁) (cur :: v₂) (path ++ [cur]) ?_ ?_ hdet
            · intro a ha
              rcases List.mem_cons.mp ha with ha | ha
              · exact ha ▸ List.mem_cons_self _ _
              · exact List.mem_cons_of_mem _ (hsub a ha)
            · intro a
              rw [List.mem_cons, List.mem_append, List.mem_singleton, hpv a]
              tauto

/-- Under a detect-none guarantee with a larger visited set, detection
with any smaller consistent visited set also reports no cycle. -/
theorem detect_none_mono (entries : Entries) :
    ∀ fuel cur v₁ v₂ p₁ p₂, (∀ a ∈ v₂, a ∈ v₁) → (∀ a, a ∈ v₁ ↔ a ∈ p₁) →
      (∀ a, a ∈ v₂ ↔ a ∈ p₂) →
      detectFuel entries fuel p₁ v₁ cur = none →
      detectFuel entries fuel p₂ v₂ cur = none := by
  intro fuel
  induction fuel with
  | zero => intro cur v₁ v₂ p₁ p₂ _ _ _ _; rfl
  | succ n ih =>
    intro cur v₁ v₂ p₁ p₂ hsub hpv1 hpv2 hdet
    by_cases hc : cur = ""
    · rw [detectFuel_succ_of_empty entries n p₂ v₂ hc]
    · by_cases hv1 : cur ∈ v₁
      · rw [detectFuel_succ_of_visited entries n p₁ v₁ hc hv1,
          if_pos ((hpv1 cur).mp hv1)] at hdet
        cases hdet
      · have hv2 : cur ∉ v₂ := fun hm => hv1 (hsub cur hm)
        cases hl : entries.lookup cur with
        | none => rw [detectFuel_succ_of_none entries n p₂ v₂ hc hv2 hl]
        | some e =>
          rw [detectFuel_succ_of_some entries n p₂ v₂ hc hv2 hl]
          by_cases hi : e.inherits_from = ""
          · rw [if_pos hi]
          · rw [if_neg hi]
            rw [detectFuel_succ_of_some entries n p₁ v₁ hc hv1 hl, if_neg hi] at hdet
            apply ih e.inherits_from (cur :: v₁) (cur :: v₂) (p₁ ++ [cur]) (p₂ ++ [cur])
              ?_ ?_ ?_ hdet
            · intro a ha
              rcases List.mem_cons.mp ha with ha | ha
              · exact ha ▸ List.mem_cons_self _ _
              · exact List.mem_cons_of_mem _ (hsub a ha)
            · intro a
              rw [List.mem_cons, List.mem_append, List.mem_singleton, hpv1 a]
              tauto
            · intro a
              rw [List.mem_cons, List.mem_append, List.mem_singleton, hpv2 a]
              tauto

/-- Claim C3 counterexample: in the two-class cycle, A inherits from B
and B has a record, yet path(A) = [A, B] differs from
[A] ++ path(B) = [A, B, A]. -/
theorem claim_C3_counterexample :
    (twoCycleEntries.lookup "A").map ConfigEntry.inherits_from = some "B" ∧
      (∃ e, twoCycleEntries.lookup "B" = some e) ∧
      compute_inheritance_path twoCycleEntries "A" ≠
        "A" :: compute_inheritance_path twoCycleEntries "B" :=
  ⟨by decide, ⟨mkE "B" "A", by decide⟩, by decide⟩

/-- Claim C3 (amended): for every class X (non-empty name) whose
inherits_from names a class P present in entries, and from which no
inheritance cycle is detected, path(X) = [X] ++ path(P) exactly and
order-preserving. -/
theorem claim_C3 (entries : Entries) (X P : String) (e eP : ConfigEntry)
    (hlX : entries.lookup X = some e) (hiX : e.inherits_from = P) (hP : P ≠ "")
    (hlP : entries.lookup P = some eP) (hx : X ≠ "")
    (hdet : detect_inheritance_cycle entries X = none) :
    compute_inheritance_path entries X = X :: compute_inheritance_path entries P := by
  subst hiX
  have hXk : X ∈ keysOf entries := mem_keysOf_of_lookup hlX
  have hcard1 : unvisitedCard entries [X] < entries.length := by
    have h1 : unvisitedCard entries (X :: []) < unvisitedCard entries [] :=
      unvisitedCard_lt hXk (List.not_mem_nil X)
    have h2 := unvisitedCard_le_length entries []
    omega
  have hstep : compute_inheritance_path entries X =
      X :: walkFuel entries entries.length [] [X] e.inherits_from := by
    rw [compute_path_of_detect_none hdet,
      walkFuel_succ_of_some entries entries.length [] [] hx (List.not_mem_nil X) hlX,
      if_neg hP, List.nil_append,
      walkFuel_eq_append entries entries.length [X] (X :: []) e.inherits_from,
      List.singleton_append]
  have hdet1 : detectFuel entries entries.length [X] [X] e.inherits_from = none := by
    unfold detect_inheritance_cycle at hdet
    rw [detectFuel_succ_of_some entries entries.length [] [] hx (List.not_mem_nil X) hlX,
      if_neg hP, List.nil_append] at hdet
    exact hdet
  have hdet2 : detectFuel entries (entries.length + 1) [X] [X] e.inherits_from = none := by
    rw [detectFuel_stable entries (entries.length + 1) entries.length [X] [X]
      e.inherits_from (by omega) hcard1]
    exact hdet1
  have hwalk1 : walkFuel entries entries.length [] [X] e.inherits_from =
      walkFuel entries (entries.length + 1) [] [X] e.inherits_from :=
    walkFuel_stable entries entries.length (entries.length + 1) [] [X]
      e.inherits_from hcard1 (by omega)
  have hwalk2 : walkFuel entries (entries.length + 1) [] [X] e.inherits_from =
      walkFuel entries (entries.length + 1) [] [] e.inherits_from :=
    walk_visited_irrelevant entries (entries.length + 1) e.inherits_from [X] [] [X]
      (by intro a ha; cases ha) (fun a => Iff.rfl) hdet2 []
  have hdetP : detect_inheritance_cycle entries e.inherits_from = none := by
    unfold detect_inheritance_cycle
    exact detect_none_mono entries (entries.length + 1) e.inherits_from [X] [] [X] []
      (by intro a ha; cases ha) (fun a => Iff.rfl) (by simp) hdet2
  rw [hstep, hwalk1, hwalk2, ← compute_path_of_detect_none hdetP]

/-- A two-class acyclic chain: B inherits from the root A. -/
def childParentEntries : Entries := [("B", mkE "B" "A"), ("A", mkE "A" "")]

theorem claim_C3_witness :
    detect_inheritance_cycle childParentEntries "B" = none ∧
      compute_inheritance_path childParentEntries "B" =
        "B" :: compute_inheritance_path childParentEntries "A" :=
  ⟨by decide,
    claim_C3 childParentEntries "B" "A" (mkE "B" "A") (mkE "A" "") (by decide) rfl
      (by decide) (by decide) (by decide) (by decide)⟩

/-! ### Characterization of the children and descendants maps -/

theorem memMapB_nil (a b : String) : memMapB [] a b = false := rfl

theorem memMapB_cons (ka : String) (la : List String)
    (rest : List (String × List String)) (a b : String) :
    memMapB ((ka, la) :: rest) a b =
      if a = ka then decide (b ∈ la) else memMapB rest a b := by
  unfold memMapB
  rw [lookup_cons]
  by_cases h : a = ka
  · rw [if_pos h, if_pos h]
  · rw [if_neg h, if_neg h]

theorem memMapB_addToSetMap (m : List (String × List String)) (k v a b : String) :
    memMapB (addToSetMap m k v) a b = true ↔
      (memMapB m a b = true ∨ (a = k ∧ b = v)) := by
  induction m with
  | nil =>
    rw [addToSetMap, memMapB_cons, memMapB_nil]
    by_cases h : a = k
    · rw [if_pos h]
      simp [h]
    · rw [if_neg h]
      simp [h]
  | cons p rest ih =>
    obtain ⟨ka, la⟩ := p
    rw [addToSetMap]
    by_cases hky : ka = k
    · subst hky
      rw [if_pos rfl, memMapB_cons, memMapB_cons]
      by_cases hak : a = ka
      · rw [if_pos hak, if_pos hak]
        subst hak
        by_cases hvl : v ∈ la
        · rw [if_pos hvl]
          simp only [decide_eq_true_eq]
          constructor
          · exact fun h => Or.inl h
          · rintro (h | ⟨-, rfl⟩)
            · exact h
            · exact hvl
        · rw [if_neg hvl]
          simp only [decide_eq_true_eq, List.mem_append, List.mem_singleton]
          tauto
      · rw [if_neg hak, if_neg hak]
        have : ¬ (a = ka ∧ b = v) := fun hc => hak hc.1
        tauto
    · rw [if_neg hky, memMapB_cons, memMapB_cons]
      by_cases hak : a = ka
      · rw [if_pos hak, if_pos hak]
        have : ¬ (a = k ∧ b = v) := fun hc => hky (by rw [← hak, hc.1])
        tauto
      · rw [if_neg hak, if_neg hak]
        exact ih

theorem bulk_children_aux (l : Entries) (a b : String) :
    ∀ m, memMapB
        (l.foldl (fun cm p =>
          if p.2.inherits_from = "" then cm
          else addToSetMap cm p.2.inherits_from p.2.class_name) m) a b = true ↔
      (memMapB m a b = true ∨
        ∃ p ∈ l, p.2.inherits_from = a ∧ p.2.class_name = b ∧ a ≠ "") := by
  induction l with
  | nil => intro m; simp
  | cons p rest ih =>
    intro m
    rw [List.foldl_cons, ih]
    by_cases hg : p.2.inherits_from = ""
    · rw [if_pos hg]
      constructor
      · rintro (h | h)
        · exact Or.inl h
        · right
          obtain ⟨q, hq, hrest⟩ := h
          exact ⟨q, List.mem_cons_of_mem _ hq, hrest⟩
      · rintro (h | ⟨q, hq, h1, h2, h3⟩)
        · exact Or.inl h
        · rcases List.mem_cons.mp hq with rfl | hq
          · exact absurd (h1 ▸ hg) h3
          · exact Or.inr ⟨q, hq, h1, h2, h3⟩
    · rw [if_neg hg, memMapB_addToSetMap]
      constructor
      · rintro ((h | ⟨rfl, rfl⟩) | h)
        · exact Or.inl h
        · exact Or.inr ⟨p, List.mem_cons_self _ _, rfl, rfl, fun he => hg (he ▸ rfl)⟩
        · obtain ⟨q, hq, hrest⟩ := h
          exact Or.inr ⟨q, List.mem_cons_of_mem _ hq, hrest⟩
      · rintro (h | ⟨q, hq, h1, h2, h3⟩)
        · exact Or.inl (Or.inl h)
        · rcases List.mem_cons.mp hq with rfl | hq
          · exact Or.inl (Or.inr ⟨h1.symm, h2.symm⟩)
          · exact Or.inr ⟨q, hq, h1, h2, h3⟩

theorem bulk_children_char (entries : Entries) (a b : String) :
    memMapB (bulk_children entries) a b = true ↔
      ∃ p ∈ entries, p.2.inherits_from = a ∧ p.2.class_name = b ∧ a ≠ "" := by
  unfold bulk_children
  rw [bulk_children_aux]
  rw [memMapB_nil]
  simp

theorem lookup_of_mem_nodup {α : Type} {l : List (String × α)} {k : String} {v : α}
    (hn : (l.map Prod.fst).Nodup) (hm : (k, v) ∈ l) : l.lookup k = some v := by
  induction l with
  | nil => cases hm
  | cons p rest ih =>
    obtain ⟨ka, va⟩ := p
    rw [lookup_cons]
    simp only [List.map_cons, List.nodup_cons] at hn
    rcases List.mem_cons.mp hm with he | hm'
    · obtain ⟨rfl, rfl⟩ := Prod.mk.injEq .. ▸ he
      injection he with h1 h2
      rw [if_pos rfl]
    · by_cases hk : k = ka
      · exfalso
        subst hk
        exact hn.1 (List.mem_map.mpr ⟨(k, v), hm', rfl⟩)
      · rw [if_neg hk]
        exact ih hn.2 hm'

/-- Claim C5 counterexample: with the single record A -> Ghost, bulk
loading records a child edge under Ghost even though Ghost has no
record, so the claimed requirement that the parent exist in entries is
violated and children_of(Ghost) is non-empty. -/
theorem claim_C5_counterexample :
    memMapB (bulk_children (entriesDict [mkE "A" "Ghost"])) "Ghost" "A" = true ∧
      (entriesDict [mkE "A" "Ghost"]).lookup "Ghost" = none :=
  ⟨by decide, by decide⟩

/-- Claim C5 (amended): for a category populated by bulk_add_entries,
the children map contains c under p if and only if the stored record of
c has inherits_from = p and p is non-empty; whether p itself has a record
is irrelevant, so a pointer to an external name does produce a child
edge. -/
theorem claim_C5 (records : List ConfigEntry) (p c : String) :
    memMapB (bulk_children (entriesDict records)) p c = true ↔
      ∃ e, (entriesDict records).lookup c = some e ∧
        e.inherits_from = p ∧ p ≠ "" := by
  rw [bulk_children_char]
  constructor
  · rintro ⟨q, hq, hinh, hcn, hne⟩
    have hinv := entriesDict_mem hq
    refine ⟨q.2, ?_, hinh, hne⟩
    have hqc : q.1 = c := by rw [← hinv.2, hcn]
    have : (c, q.2) ∈ entriesDict records := by
      rw [← hqc]
      exact hq
    exact lookup_of_mem_nodup (entriesDict_nodup records) this
  · rintro ⟨e, hl, hinh, hne⟩
    have hm := lookup_mem hl
    have hinv := entriesDict_mem hm
    exact ⟨(c, e), hm, hinh, hinv.2, hne⟩

/-! ### Descendants -/

theorem mem_compute_descendants {entries : Entries} {X D : String} :
    D ∈ compute_descendants entries X ↔
      D ∈ keysOf entries ∧ D ≠ X ∧ X ∈ compute_inheritance_path entries D := by
  unfold compute_descendants
  rw [List.mem_filter]
  simp only [decide_eq_true_eq]

/-- If the walk contains a class C whose recorded parent P is non-empty
and has a record, then the walk also contains P: after appending C the
loop either continues to P, or stops because P was already visited, in
which case P was already appended. -/
theorem walk_next_mem (entries : Entries) {C : String} {e : ConfigEntry}
    (hlC : entries.lookup C = some e) (hP : e.inherits_from ≠ "")
    (hlP : (entries.lookup e.inherits_from).isSome) :
    ∀ fuel q vis cur, unvisitedCard entries vis < fuel →
      C ∈ walkFuel entries fuel q vis cur → C ∉ q →
      (e.inherits_from ∈ vis → e.inherits_from ∈ q) →
      e.inherits_from ∈ walkFuel entries fuel q vis cur := by
  intro fuel
  induction fuel with
  | zero =>
    intro q vis cur hcard hmem hq _
    rw [walkFuel_zero] at hmem ⊢
    exact absurd hmem hq
  | succ n ih =>
    intro q vis cur hcard hmem hq hPv
    by_cases hc : cur = ""
    · rw [walkFuel_succ_of_empty entries n q vis hc] at hmem ⊢
      exact absurd hmem hq
    · by_cases hv : cur ∈ vis
      · rw [walkFuel_succ_of_visited entries n q vis hv] at hmem ⊢
        exact absurd hmem hq
      · cases hl : entries.lookup cur with
        | none =>
          rw [walkFuel_succ_of_none entries n q vis hc hv hl] at hmem ⊢
          exact absurd hmem hq
        | some ec =>
          rw [walkFuel_succ_of_some entries n q vis hc hv hl] at hmem ⊢
          by_cases hi : ec.inherits_from = ""
          · rw [if_pos hi] at hmem ⊢
            exfalso
            rcases List.mem_append.mp hmem with h | h
            · exact hq h
            · rw [List.mem_singleton] at h
              subst h
              rw [hlC] at hl
              obtain rfl := Option.some.inj hl
              exact hP hi
          · rw [if_neg hi] at hmem ⊢
            have hcard' : unvisitedCard entries (cur :: vis) < n := by
              have := unvisitedCard_lt (mem_keysOf_of_lookup hl) hv
              omega
            by_cases hCcur : C = cur
            · subst hCcur
              rw [hlC] at hl
              obtain rfl := Option.some.inj hl
              by_cases hPvis : e.inherits_from ∈ C :: vis
              · have hPq' : e.inherits_from ∈ q ++ [C] := by
                  rcases List.mem_cons.mp hPvis with h | h
                  · rw [h]
                    exact List.mem_append.mpr (Or.inr (List.mem_singleton.mpr rfl))
                  · exact List.mem_append.mpr (Or.inl (hPv h))
                rw [walkFuel_eq_append entries n (q ++ [C]) (C :: vis) e.inherits_from]
                exact List.mem_append.mpr (Or.inl hPq')
              · obtain ⟨n', rfl⟩ : ∃ n', n = n' + 1 := ⟨n - 1, by omega⟩
                cases hlP2 : entries.lookup e.inherits_from with
                | none =>
                  rw [hlP2] at hlP
                  cases hlP
                | some eP =>
                  rw [walkFuel_succ_of_some entries n' (q ++ [C]) (C :: vis) hP hPvis hlP2]
                  by_cases hiP : eP.inherits_from = ""
                  · rw [if_pos hiP]
                    exact List.mem_append.mpr (Or.inr (List.mem_singleton.mpr rfl))
                  · rw [if_neg hiP]
                    rw [walkFuel_eq_append entries n' ((q ++ [C]) ++ [e.inherits_from])
                      (e.inherits_from :: C :: vis) eP.inherits_from]
                    exact List.mem_append.mpr (Or.inl
                      (List.mem_append.mpr (Or.inr (List.mem_singleton.mpr rfl))))
            · apply ih (q ++ [cur]) (cur :: vis) ec.inherits_from hcard' hmem ?_ ?_
              · intro hmm
                rcases List.mem_append.mp hmm with h | h
                · exact hq h
                · exact hCcur (List.mem_singleton.mp h)
              · intro hPm
                rcases List.mem_cons.mp hPm with h | h
                · rw [h]
                  exact List.mem_append.mpr (Or.inr (List.mem_singleton.mpr rfl))
                · exact List.mem_append.mpr (Or.inl (hPv h))

/-- Claim C6 counterexample: inheritance cycles break both halves of the
claim.  In the two-class cycle, B is a child of A and descendants(B)
contains A, but A is never its own descendant, so descendants(B) is not
a subset of descendants(A); with a self-loop C -> C, C is a child of C
yet not a member of descendants(C). -/
theorem claim_C6_counterexample :
    (memMapB (bulk_children twoCycleEntries) "A" "B" = true ∧
      "A" ∈ compute_descendants twoCycleEntries "B" ∧
      "A" ∉ compute_descendants twoCycleEntries "A") ∧
    (memMapB (bulk_children [("C", mkE "C" "C")]) "C" "C" = true ∧
      "C" ∉ compute_descendants [("C", mkE "C" "C")] "C") :=
  ⟨⟨by decide, by decide, by decide⟩, ⟨by decide, by decide⟩⟩

/-- In a linked segment that wraps around, the recorded parent of any
member is again a member. -/
theorem cycle_next_mem {entries : Entries} {cyc : List String} {C P : String}
    (hch : List.Chain' (InhR entries) cyc)
    (hwrap : ∃ pl hd, cyc.getLast? = some pl ∧ cyc.head? = some hd ∧ InhR entries pl hd)
    (hC : C ∈ cyc) (hCP : InhR entries C P) : P ∈ cyc := by
  obtain ⟨pl, hd, hpl, hhd, hInh⟩ := hwrap
  obtain ⟨j, hj, hgetC⟩ := List.mem_iff_getElem.mp hC
  have hpos : 0 < cyc.length := by omega
  by_cases hj1 : j + 1 < cyc.length
  · have hstep := List.chain'_iff_get.mp hch j (by omega)
    rw [List.get_eq_getElem, List.get_eq_getElem] at hstep
    have hPs : P = cyc[j + 1] := by
      apply InhR_functional hCP
      rw [← hgetC] at hCP ⊢
      exact hstep
    rw [hPs]
    exact List.getElem_mem hj1
  · have hj' : j = cyc.length - 1 := by omega
    have hlast : pl = C := by
      rw [List.getLast?_eq_getElem?, List.getElem?_eq_getElem (by omega)] at hpl
      have hple := Option.some.inj hpl
      subst hj'
      rw [← hple]
      exact hgetC
    have hPhd : P = hd := InhR_functional hCP (hlast ▸ hInh)
    rw [hPhd]
    exact List.mem_of_mem_head? (by rw [hhd]; rfl)

/-- Claim C6 (amended): in a category state with duplicate-free keys
whose records carry their own key as class_name, if C (non-empty name)
is recorded as a child of P, P has a record, and no inheritance cycle is
detected from C, then C is a member of descendants(P), and every member
of descendants(C) other than P itself is a member of descendants(P). -/
theorem claim_C6 (entries : Entries) (P C : String) (eP : ConfigEntry)
    (hnd : (keysOf entries).Nodup)
    (hkeys : ∀ p ∈ entries, p.2.class_name = p.1)
    (hx : C ≠ "")
    (hchild : memMapB (bulk_children entries) P C = true)
    (hlP : entries.lookup P = some eP)
    (hdet : detect_inheritance_cycle entries C = none) :
    C ∈ compute_descendants entries P ∧
      ∀ D ∈ compute_descendants entries C, D ≠ P → D ∈ compute_descendants entries P := by
  obtain ⟨p, hp, hinh, hcn, hPne⟩ := (bulk_children_char entries P C).mp hchild
  have hp1 : p.1 = C := by rw [← hkeys p hp, hcn]
  have hlC : entries.lookup C = some p.2 :=
    lookup_of_mem_nodup hnd (by rw [← hp1]; exact hp)
  have hie : p.2.inherits_from ≠ "" := by rw [hinh]; exact hPne
  have hne : entries ≠ [] := by
    intro h
    rw [h] at hlC
    simp [List.lookup] at hlC
  obtain ⟨k, hk⟩ : ∃ k, entries.length = k + 1 :=
    ⟨entries.length - 1, by have := List.length_pos.mpr hne; omega⟩
  have hCP : C ≠ P := by
    intro hCeq
    have hinh' : p.2.inherits_from = C := by rw [hinh, hCeq]
    unfold detect_inheritance_cycle at hdet
    rw [detectFuel_succ_of_some entries entries.length [] [] hx (List.not_mem_nil C) hlC,
      if_neg hie, hk, hinh',
      detectFuel_succ_of_visited entries k ([] ++ [C]) (C :: []) hx
        (List.mem_cons_self _ _),
      if_pos (by rw [List.nil_append]; exact List.mem_singleton.mpr rfl)] at hdet
    cases hdet
  have hcard : unvisitedCard entries [] < entries.length + 1 :=
    Nat.lt_succ_of_le (unvisitedCard_le_length entries [])
  have hPsome : (entries.lookup p.2.inherits_from).isSome := by
    rw [hinh, hlP]
    rfl
  constructor
  · rw [mem_compute_descendants]
    refine ⟨mem_keysOf_of_lookup hlC, hCP, ?_⟩
    rw [compute_path_of_detect_none hdet]
    have hCmem : C ∈ walkFuel entries (entries.length + 1) [] [] C :=
      List.mem_of_mem_head? (by rw [walk_start_head entries entries.length hx hlC]; rfl)
    have := walk_next_mem entries hlC hie hPsome (entries.length + 1) [] [] C hcard
      hCmem (List.not_mem_nil C) (fun h => absurd h (List.not_mem_nil _))
    rw [hinh] at this
    exact this
  · intro D hD hDP
    obtain ⟨hDkey, hDC, hCpath⟩ := mem_compute_descendants.mp hD
    rw [mem_compute_descendants]
    refine ⟨hDkey, hDP, ?_⟩
    cases hdD : detect_inheritance_cycle entries D with
    | none =>
      rw [compute_path_of_detect_none hdD]
      rw [compute_path_of_detect_none hdD] at hCpath
      have := walk_next_mem entries hlC hie hPsome (entries.length + 1) [] [] D hcard
        hCpath (List.not_mem_nil C) (fun h => absurd h (List.not_mem_nil _))
      rw [hinh] at this
      exact this
    | some cyc =>
      have hDne : ¬ D = "" := by
        intro h
        rw [h] at hdD
        unfold detect_inheritance_cycle at hdD
        rw [detectFuel_succ_of_empty entries entries.length [] [] rfl] at hdD
        cases hdD
      obtain ⟨eD, hlD⟩ := Option.isSome_iff_exists.mp (lookup_isSome_of_mem_keys hDkey)
      have spec := detect_top_spec hDne hlD hdD
      rw [compute_path_of_detect_some hdD] at hCpath ⊢
      exact cycle_next_mem spec.2.1 spec.2.2.2.1 hCpath ⟨p.2, hlC, hinh⟩

theorem detect_some_setup {entries : Entries} {X : String} {cyc : List String}
    (h : detect_inheritance_cycle entries X = some cyc) :
    X ≠ "" ∧ ∃ e, entries.lookup X = some e := by
  have hx : X ≠ "" := by
    intro he
    unfold detect_inheritance_cycle at h
    rw [detectFuel_succ_of_empty entries entries.length [] [] he] at h
    cases h
  refine ⟨hx, ?_⟩
  cases hl : entries.lookup X with
  | none =>
    exfalso
    unfold detect_inheritance_cycle at h
    rw [detectFuel_succ_of_none entries entries.length [] [] hx (List.not_mem_nil X) hl] at h
    cases h
  | some e => exact ⟨e, rfl⟩

theorem compute_path_nodup (entries : Entries) (X : String) :
    (compute_inheritance_path entries X).Nodup := by
  cases hd : detect_inheritance_cycle entries X with
  | none =>
    rw [compute_path_of_detect_none hd]
    exact walkFuel_nodup entries (entries.length + 1) [] [] X List.nodup_nil
      (fun a ha => absurd ha (List.not_mem_nil a))
  | some cyc =>
    rw [compute_path_of_detect_some hd]
    obtain ⟨hx, e, hl⟩ := detect_some_setup hd
    exact (detect_top_spec hx hl hd).2.2.1

theorem compute_path_head_of_mem {entries : Entries} {X : String}
    (hmem : X ∈ compute_inheritance_path entries X) :
    (compute_inheritance_path entries X).head? = some X := by
  cases hd : detect_inheritance_cycle entries X with
  | some cyc =>
    obtain ⟨hx, e, hl⟩ := detect_some_setup hd
    have spec := detect_top_spec hx hl hd
    rw [compute_path_of_detect_some hd] at hmem ⊢
    rcases spec.2.2.2.2 with h | h
    · exact h
    · exact absurd hmem h
  | none =>
    rw [compute_path_of_detect_none hd] at hmem ⊢
    by_cases hx : X = ""
    · rw [walkFuel_succ_of_empty entries entries.length [] [] hx] at hmem
      cases hmem
    · cases hl : entries.lookup X with
      | none =>
        rw [walkFuel_succ_of_none entries entries.length [] [] hx
          (List.not_mem_nil X) hl] at hmem
        cases hmem
      | some e => exact walk_start_head entries entries.length hx hl

theorem memMapB_foldl_pairs (l : List (String × String)) (a b : String) :
    ∀ m, memMapB (l.foldl (fun m p => addToSetMap m p.1 p.2) m) a b = true ↔
      (memMapB m a b = true ∨ (a, b) ∈ l) := by
  induction l with
  | nil => intro m; simp
  | cons p rest ih =>
    intro m
    rw [List.foldl_cons, ih, memMapB_addToSetMap, List.mem_cons, Prod.ext_iff]
    tauto

theorem bulk_descendants_char (entries : Entries) (a b : String) :
    memMapB (bulk_descendants entries) a b = true ↔
      ∃ cls ∈ keysOf entries, cls = b ∧
        a ∈ (compute_inheritance_path entries cls).tail := by
  unfold bulk_descendants
  rw [memMapB_foldl_pairs, memMapB_nil]
  simp only [Bool.false_eq_true, false_or, bulkDescPairs, List.mem_flatMap,
    List.mem_map, Prod.mk.injEq]
  constructor
  · rintro ⟨cls, hcls, anc, hanc, rfl, rfl⟩
    exact ⟨cls, hcls, rfl, hanc⟩
  · rintro ⟨cls, hcls, rfl, hanc⟩
    exact ⟨cls, hcls, a, hanc, rfl, rfl⟩

/-- Claim C7: no class is ever a member of its own descendant set,
whether descendants are computed singly or in bulk, cycles included. -/
theorem claim_C7 (entries : Entries) (X : String) :
    X ∉ compute_descendants entries X ∧
      memMapB (bulk_descendants entries) X X = false := by
  constructor
  · intro h
    exact (mem_compute_descendants.mp h).2.1 rfl
  · cases hmb : memMapB (bulk_descendants entries) X X with
    | false => rfl
    | true =>
      exfalso
      obtain ⟨cls, hcls, hclsx, htail⟩ := (bulk_descendants_char entries X X).mp hmb
      rw [hclsx] at htail
      have hpmem : X ∈ compute_inheritance_path entries X := List.mem_of_mem_tail htail
      have hhead := compute_path_head_of_mem hpmem
      have hnd := compute_path_nodup entries X
      obtain ⟨t, ht⟩ : ∃ t, compute_inheritance_path entries X = X :: t := by
        cases hp : compute_inheritance_path entries X with
        | nil =>
          rw [hp] at hhead
          cases hhead
        | cons y t =>
          rw [hp] at hhead
          obtain rfl := Option.some.inj hhead
          exact ⟨t, rfl⟩
      rw [ht, List.tail_cons] at htail
      rw [ht] at hnd
      exact (List.nodup_cons.mp hnd).1 htail

theorem claim_C6_witness :
    memMapB (bulk_children childParentEntries) "A" "B" = true ∧
      detect_inheritance_cycle childParentEntries "B" = none ∧
      "B" ∈ compute_descendants childParentEntries "A" :=
  ⟨by decide, by decide,
    (claim_C6 childParentEntries "A" "B" (mkE "A" "") (by decide) (by decide)
      (by decide) (by decide) (by decide) (by decide)).1⟩

theorem claim_C2_witness :
    rootOnlyEntries.lookup "A" = some (mkE "A" "") ∧ ("A" : String) ≠ "" ∧
      compute_inheritance_path rootOnlyEntries "A" ≠ [] :=
  ⟨by decide, by decide,
    (claim_C2 rootOnlyEntries "A" (mkE "A" "") (by decide) (by decide)).1⟩

/-! ### Memoization across add_entry (C8) and missing-data queries (C9) -/

/-- Claim C8 counterexample: memoize path(A) = [A] while A is a root,
re-add A with parent B and add B; the next query still returns the stale
memo [A] although recomputing from the current entries gives [A, B]. -/
theorem claim_C8_counterexample :
    (get_inheritance_path
        (add_entry
          (add_entry (get_inheritance_path (add_entry emptyCache (mkE "A" "")) "A").2
            (mkE "A" "B"))
          (mkE "B" "")) "A").1 = ["A"] ∧
      compute_inheritance_path
        (add_entry
          (add_entry (get_inheritance_path (add_entry emptyCache (mkE "A" "")) "A").2
            (mkE "A" "B"))
          (mkE "B" "")).entries "A" = ["A", "B"] ∧
      (["A"] : List String) ≠ ["A", "B"] :=
  ⟨by decide, by decide, by decide⟩

/-- Claim C8 (amended): add_entry inserts the record into entries and
the lowercase alias map but carries the memoized children, descendants
and inheritance_paths maps over to the new cache unchanged; no
invalidation or recompute takes place, so a path memoized before a
re-add is returned verbatim by the next query even when it no longer
matches the current entries. -/
theorem claim_C8 (c : CategoryCache) (e : ConfigEntry) :
    (add_entry c e).inheritance_paths = c.inheritance_paths ∧
      (add_entry c e).descendants = c.descendants ∧
      (add_entry c e).children = c.children ∧
      (add_entry c e).entries.lookup e.class_name = some e :=
  ⟨rfl, rfl, rfl, lookup_insertA_self c.entries e.class_name e⟩

theorem get_or_create_cache_of_some {m : Manager} {category : String} {c : CategoryCache}
    (h : m.lookup category = some c) : get_or_create_cache m category = (c, m) := by
  unfold get_or_create_cache
  rw [h]

theorem get_inheritance_path_absent {c : CategoryCache} {cls : String}
    (h : c.entries.lookup cls = none) : get_inheritance_path c cls = ([], c) := by
  unfold get_inheritance_path
  rw [h]
  rfl

theorem mgr_get_children_of_some {m : Manager} {category : String} {c : CategoryCache}
    (h : m.lookup category = some c) (cls : String) :
    mgr_get_children m category cls = (c.children.lookup cls).getD [] := by
  unfold mgr_get_children
  rw [h]

theorem addToSetMap_values_ne_nil {m : List (String × List String)} {k v : String}
    (h : ∀ p ∈ m, p.2 ≠ []) : ∀ p ∈ addToSetMap m k v, p.2 ≠ [] := by
  induction m with
  | nil =>
    intro p hp
    rw [addToSetMap] at hp
    rcases List.mem_cons.mp hp with rfl | hp
    · simp
    · cases hp
  | cons q rest ih =>
    obtain ⟨ka, la⟩ := q
    intro p hp
    rw [addToSetMap] at hp
    by_cases hk : ka = k
    · rw [if_pos hk] at hp
      rcases List.mem_cons.mp hp with rfl | hp
      · have hla : la ≠ [] := h (ka, la) (List.mem_cons_self _ _)
        by_cases hvl : v ∈ la
        · simpa [hvl] using hla
        · simp [hvl]
      · exact h p (List.mem_cons_of_mem _ hp)
    · rw [if_neg hk] at hp
      rcases List.mem_cons.mp hp with rfl | hp
      · exact h (ka, la) (List.mem_cons_self _ _)
      · exact ih (fun q hq => h q (List.mem_cons_of_mem _ hq)) p hp

theorem bulk_children_values_ne_nil (entries : Entries) :
    ∀ p ∈ bulk_children entries, p.2 ≠ [] := by
  unfold bulk_children
  have main : ∀ (l : Entries) (m : List (String × List String)),
      (∀ p ∈ m, p.2 ≠ []) →
      ∀ p ∈ l.foldl (fun cm p =>
          if p.2.inherits_from = "" then cm
          else addToSetMap cm p.2.inherits_from p.2.class_name) m, p.2 ≠ [] := by
    intro l
    induction l with
    | nil => intro m h; exact h
    | cons q rest ih =>
      intro m h
      rw [List.foldl_cons]
      by_cases hg : q.2.inherits_from = ""
      · rw [if_pos hg]
        exact ih m h
      · rw [if_neg hg]
        exact ih _ (addToSetMap_values_ne_nil h)
  exact main entries [] (by intro p hp; cases hp)

/-- Claim C9 counterexample: Ghost is absent from entries, yet the
children query returns the non-empty set {A} because the bulk loader
recorded a child edge under the external parent name. -/
theorem claim_C9_counterexample :
    entriesLookup (mgr_bulk_add_entries [] "cat" [mkE "A" "Ghost"]) "cat" "Ghost" = none ∧
      mgr_get_children (mgr_bulk_add_entries [] "cat" [mkE "A" "Ghost"]) "cat" "Ghost"
        = ["A"] ∧
      (["A"] : List String) ≠ [] :=
  ⟨by decide, by decide, by decide⟩

/-- Claim C9 (amended): on a bulk-loaded category, a name absent from
entries gets the empty path, and its children query returns the empty
set provided additionally no record names it as parent (without that
proviso the children set of an absent name can be non-empty); both
queries are total functions, so the engine never raises for missing
data, including an unknown category. -/
theorem claim_C9 (m : Manager) (category : String) (records : List ConfigEntry)
    (cls : String)
    (habs : entriesLookup (mgr_bulk_add_entries m category records) category cls = none)
    (hni : ∀ r ∈ records, r.inherits_from ≠ cls) :
    (mgr_get_inheritance_path (mgr_bulk_add_entries m category records) category cls).1
        = [] ∧
      mgr_get_children (mgr_bulk_add_entries m category records) category cls = [] := by
  have hlookup : (mgr_bulk_add_entries m category records).lookup category
      = some (create_bulk records) :=
    lookup_insertA_self m category (create_bulk records)
  have habs' : (create_bulk records).entries.lookup cls = none := by
    unfold entriesLookup at habs
    rw [hlookup] at habs
    exact habs
  constructor
  · unfold mgr_get_inheritance_path
    rw [get_or_create_cache_of_some hlookup]
    show (get_inheritance_path (create_bulk records) cls).1 = []
    rw [get_inheritance_path_absent habs']
  · have hchildnone : (bulk_children (entriesDict records)).lookup cls = none := by
      cases hlc : (bulk_children (entriesDict records)).lookup cls with
      | none => rfl
      | some l =>
        exfalso
        have hmem := lookup_mem hlc
        have hlne := bulk_children_values_ne_nil (entriesDict records) (cls, l) hmem
        obtain ⟨b, hb⟩ := List.exists_mem_of_ne_nil l hlne
        have hmm : memMapB (bulk_children (entriesDict records)) cls b = true := by
          unfold memMapB
          rw [hlc]
          simp [hb]
        obtain ⟨p, hp, hinh, hcn, hne⟩ := (bulk_children_char _ cls b).mp hmm
        exact hni p.2 (entriesDict_mem hp).1 hinh
    rw [mgr_get_children_of_some hlookup cls]
    show ((bulk_children (entriesDict records)).lookup cls).getD [] = []
    rw [hchildnone]
    rfl

theorem claim_C9_witness :
    entriesLookup (mgr_bulk_add_entries [] "cat" [mkE "A" ""]) "cat" "B" = none ∧
      ((mgr_get_inheritance_path (mgr_bulk_add_entries [] "cat" [mkE "A" ""]) "cat" "B").1
          = [] ∧
        mgr_get_children (mgr_bulk_add_entries [] "cat" [mkE "A" ""]) "cat" "B" = []) :=
  ⟨by decide, claim_C9 [] "cat" [mkE "A" ""] "B" (by decide) (by decide)⟩

/-! ### Lazy resolution versus the bulk precompute sweep (C10) -/

theorem get_inheritance_path_miss {c : CategoryCache} {cls : String} {e : ConfigEntry}
    (hl : c.entries.lookup cls = some e)
    (h2 : c.inheritance_paths.lookup cls = none) :
    (get_inheritance_path c cls).1 = compute_inheritance_path c.entries cls := by
  unfold get_inheritance_path
  rw [hl, h2]
  rfl

theorem precompute_all_paths_inheritance {c : CategoryCache} (h : c.entries ≠ []) :
    (precompute_all_paths c).inheritance_paths =
      (precompute_new_paths c).foldl (fun m p => insertA m p.1 p.2)
        c.inheritance_paths := by
  unfold precompute_all_paths
  rw [if_neg h]

theorem insertSorted_perm (key : String → Nat) (x : String) :
    ∀ l : List String, (insertSorted key x l).Perm (x :: l) := by
  intro l
  induction l with
  | nil => exact List.Perm.refl _
  | cons y ys ih =>
    rw [insertSorted]
    by_cases h : key x < key y
    · rw [if_pos h]
    · rw [if_neg h]
      exact (ih.cons y).trans (List.Perm.swap x y ys)

theorem sortByKey_perm (key : String → Nat) (l : List String) :
    (sortByKey key l).Perm l := by
  induction l with
  | nil => exact List.Perm.refl _
  | cons c rest ih =>
    show (insertSorted key c (sortByKey key rest)).Perm (c :: rest)
    exact (insertSorted_perm key c (sortByKey key rest)).trans (ih.cons c)

theorem lookup_map_self {X : String} (f : String → List String) :
    ∀ l : List String, X ∈ l → (l.map (fun c => (c, f c))).lookup X = some (f X) := by
  intro l
  induction l with
  | nil => intro h; cases h
  | cons c rest ih =>
    intro h
    rw [List.map_cons, lookup_cons]
    by_cases hx : X = c
    · rw [if_pos hx, hx]
    · rw [if_neg hx]
      rcases List.mem_cons.mp h with h | h
      · exact absurd h hx
      · exact ih h

theorem lookup_foldl_insertA_notmem (pairs : List (String × List String)) :
    ∀ (acc : List (String × List String)) (X : String), X ∉ pairs.map Prod.fst →
      ((pairs.foldl (fun m p => insertA m p.1 p.2) acc).lookup X) = acc.lookup X := by
  induction pairs with
  | nil => intro acc X _; rfl
  | cons p rest ih =>
    intro acc X hX
    rw [List.foldl_cons]
    simp only [List.map_cons, List.mem_cons] at hX
    rw [ih (insertA acc p.1 p.2) X (fun h => hX (Or.inr h))]
    exact lookup_insertA_ne acc p.1 X p.2 (fun h => hX (Or.inl h))

theorem lookup_foldl_insertA_self (pairs : List (String × List String)) :
    ∀ (acc : List (String × List String)) (X : String) (v : List String),
      (pairs.map Prod.fst).Nodup → pairs.lookup X = some v →
      ((pairs.foldl (fun m p => insertA m p.1 p.2) acc).lookup X) = some v := by
  induction pairs with
  | nil =>
    intro acc X v _ h
    cases h
  | cons p rest ih =>
    intro acc X v hnd hlk
    obtain ⟨k0, v0⟩ := p
    rw [List.foldl_cons]
    rw [lookup_cons] at hlk
    simp only [List.map_cons, List.nodup_cons] at hnd
    by_cases hx : X = k0
    · rw [if_pos hx] at hlk
      obtain rfl := Option.some.inj hlk
      have hnotin : X ∉ rest.map Prod.fst := hx ▸ hnd.1
      rw [lookup_foldl_insertA_notmem rest _ X hnotin, hx]
      exact lookup_insertA_self acc k0 v0
    · rw [if_neg hx] at hlk
      exact ih (insertA acc k0 v0) X v hnd.2 hlk

theorem precompute_fold_no_memo (entries : Entries) :
    ∀ (l : List String) (acc : List (String × List String)),
      l.foldl (fun np cls =>
        if ((([] : List (String × List String)).lookup cls).isSome) then np
        else np ++ [(cls, walkFuel entries (entries.length + 1) [] [] cls)]) acc
      = acc ++ l.map (fun cls => (cls, walkFuel entries (entries.length + 1) [] [] cls)) := by
  intro l
  induction l with
  | nil => intro acc; rw [List.map_nil, List.append_nil]; rfl
  | cons c rest ih =>
    intro acc
    rw [List.foldl_cons, List.map_cons]
    have hc : ¬ (((([] : List (String × List String)).lookup c).isSome) = true) := by
      simp [List.lookup]
    rw [if_neg hc, ih, List.append_assoc]
    rfl

/-- Claim C10 counterexample: on the state A -> B -> C -> B with a fresh
memo, lazy resolution returns the cycle segment [B, C] for A while the
bulk sweep, which walks without cycle detection, stores the full walk
[A, B, C]; the two disagree on class A. -/
theorem claim_C10_counterexample :
    (get_inheritance_path (freshCache tailCycleEntries) "A").1 = ["B", "C"] ∧
      (precompute_all_paths (freshCache tailCycleEntries)).inheritance_paths.lookup "A"
        = some ["A", "B", "C"] ∧
      some (["B", "C"] : List String) ≠ some ["A", "B", "C"] :=
  ⟨by decide, by decide, by decide⟩

/-- Claim C10 (amended): on a category with duplicate-free keys and a
fresh memo, the lazily computed path and the path stored by the bulk
sweep agree on every class from which no inheritance cycle is detected;
when a cycle is reachable they can differ, the lazy side returning the
cycle segment and the sweep storing the full walk. -/
theorem claim_C10 (entries : Entries) (X : String)
    (hnd : (keysOf entries).Nodup) (hkey : X ∈ keysOf entries)
    (hdet : detect_inheritance_cycle entries X = none) :
    (precompute_all_paths (freshCache entries)).inheritance_paths.lookup X =
      some (get_inheritance_path (freshCache entries) X).1 := by
  obtain ⟨e, hl⟩ := Option.isSome_iff_exists.mp (lookup_isSome_of_mem_keys hkey)
  have hne : entries ≠ [] := by
    intro h
    subst h
    cases hkey
  have hlazy : (get_inheritance_path (freshCache entries) X).1 =
      walkFuel entries (entries.length + 1) [] [] X := by
    rw [get_inheritance_path_miss (c := freshCache entries) hl rfl]
    exact compute_path_of_detect_none hdet
  rw [hlazy]
  rw [precompute_all_paths_inheritance (c := freshCache entries) hne]
  have hnew : precompute_new_paths (freshCache entries) =
      (sortByKey (fun x => (get_raw_path entries x).length) (keysOf entries)).map
        (fun cls => (cls, walkFuel entries (entries.length + 1) [] [] cls)) := by
    unfold precompute_new_paths
    exact precompute_fold_no_memo entries _ []
  rw [hnew]
  have hperm := sortByKey_perm (fun x => (get_raw_path entries x).length) (keysOf entries)
  have hsortnd : (sortByKey (fun x => (get_raw_path entries x).length)
      (keysOf entries)).Nodup := hperm.symm.nodup hnd
  have hsortmem : X ∈ sortByKey (fun x => (get_raw_path entries x).length)
      (keysOf entries) := hperm.mem_iff.mpr hkey
  apply lookup_foldl_insertA_self
  · rw [List.map_map]
    have : (Prod.fst ∘ fun cls =>
        (cls, walkFuel entries (entries.length + 1) [] [] cls)) = id := by
      funext c
      rfl
    rw [this, List.map_id]
    exact hsortnd
  · exact lookup_map_self _ _ hsortmem

theorem claim_C10_witness :
    (keysOf childParentEntries).Nodup ∧ "B" ∈ keysOf childParentEntries ∧
      detect_inheritance_cycle childParentEntries "B" = none ∧
      (precompute_all_paths (freshCache childParentEntries)).inheritance_paths.lookup "B"
        = some (get_inheritance_path (freshCache childParentEntries) "B").1 :=
  ⟨by decide, by decide, by decide,
    claim_C10 childParentEntries "B" (by decide) (by decide) (by decide)⟩
